import Mathlib

/-!
Verification of the cross-language primitive and array-literal translation
engine of the array-box repository (src/src/primitive-translate.js).

The JavaScript code operates on JS strings, i.e. sequences of UTF-16 code
units; `code[i]`, `substring`, `length` and regexes without the `u` flag all
work on code units.  We therefore embed a JS string as `List Nat` of UTF-16
code units (astral glyphs such as U+1D568 occupy two units, a surrogate
pair).  Language ids are plain JS strings, embedded as Lean `String` so that
unknown ids can be quantified over.

JS distinguishes `null` (explicit markers in the table) from `undefined`
(lookup of a missing property); `=== null` is true only for the former.
This distinction is observable in the code and is modelled by `JsVal`.
-/

set_option maxRecDepth 10000

namespace ArrayBox

deriving instance DecidableEq for Except

/-- A JS string as its list of UTF-16 code units. -/
abbrev Str16 := List Nat

/-- A JS value stored in (or read from) the primitive table: a string,
the explicit `null` marker, or `undefined` from a missing property. -/
inductive JsVal where
  | str (s : Str16)
  | null
  | undefined
deriving DecidableEq, Repr

/-- One row of `primitiveGroups`: the concept name and the token of each of
the six languages (`JsVal.null` when the source writes `null`). -/
structure ConceptRow where
  name : String
  apl : JsVal
  bqn : JsVal
  uiua : JsVal
  j : JsVal
  kap : JsVal
  tinyapl : JsVal
deriving DecidableEq, Repr

/-- JS property read `group[lang]`: the field for a known language id,
`undefined` for any other id. -/
def ConceptRow.get (r : ConceptRow) (lang : String) : JsVal :=
  if lang = "apl" then r.apl
  else if lang = "bqn" then r.bqn
  else if lang = "uiua" then r.uiua
  else if lang = "j" then r.j
  else if lang = "kap" then r.kap
  else if lang = "tinyapl" then r.tinyapl
  else .undefined

/-- `primitiveGroups` of primitive-translate.js, in source (insertion) order.
Tokens are written as UTF-16 code units; e.g. U+2262 (not-identical, APL
tally), U+235D (APL comment lamp), and the BQN astral letters U+1D568 etc.
as surrogate pairs [0xD835, 0xDDxx]. -/
def primitiveGroups : List ConceptRow := [
  ⟨"stringDelimiter", .str [39], .str [34], .str [34], .str [39], .str [39], .str [34]⟩,
  ⟨"comment", .str [0x235D], .str [35], .str [35], .str [78, 66, 46], .str [0x235D], .str [0x235D]⟩,
  ⟨"leftArg", .str [0x237A], .str [0xD835, 0xDD68], .null, .null, .str [0x237A], .str [0x237A]⟩,
  ⟨"rightArg", .str [0x2375], .str [0xD835, 0xDD69], .null, .null, .str [0x2375], .str [0x2375]⟩,
  ⟨"leftOperand", .str [0x237A, 0x237A], .str [0xD835, 0xDD3D], .null, .null, .null, .str [0x2376, 0x2376]⟩,
  ⟨"rightOperand", .str [0x2375, 0x2375], .str [0xD835, 0xDD3E], .null, .null, .null, .str [0x2379, 0x2379]⟩,
  ⟨"selfRef", .str [0x2207], .str [0xD835, 0xDD4A], .null, .str [36, 58], .str [0x2207], .str [0x2207]⟩,
  ⟨"iota", .str [0x2373], .str [0x2195], .str [0x21E1], .str [105, 46], .str [0x2373], .str [0x2373]⟩,
  ⟨"tally", .str [0x2262], .str [0x2260], .str [0x29FB], .str [35], .str [0x2262], .str [0x2262]⟩,
  ⟨"shape", .str [0x2374], .str [0x2262], .str [0x25B3], .str [36], .str [0x2374], .str [0x2374]⟩,
  ⟨"reverse", .str [0x233D], .str [0x233D], .str [0x21CC], .str [124, 46], .str [0x233D], .str [0x233D]⟩,
  ⟨"transpose", .str [0x2349], .str [0x2349], .str [0x2349], .str [124, 58], .str [0x2349], .str [0x2349]⟩,
  ⟨"enclose", .str [0x2282], .str [60], .str [0x25A1], .str [60], .str [0x2282], .str [0x2282]⟩,
  ⟨"first", .str [0x2283], .str [0x2291], .str [0x22A2], .str [62], .str [0x2283], .str [0x2283]⟩,
  ⟨"unique", .str [0x222A], .str [0x2377], .str [0x25F4], .str [126, 46], .str [0x222A], .str [0x222A]⟩,
  ⟨"where", .str [0x2378], .str [47], .str [0x229A], .str [73, 46], .str [0x2378], .str [0x2378]⟩,
  ⟨"gradeUp", .str [0x234B], .str [0x234B], .str [0x234F], .str [47, 58], .str [0x234B], .str [0x234B]⟩,
  ⟨"gradeDown", .str [0x2352], .str [0x2352], .str [0x2356], .str [92, 58], .str [0x2352], .str [0x2352]⟩,
  ⟨"ravel", .str [44], .str [0x294A], .str [0x266D], .str [44], .str [44], .str [44]⟩,
  ⟨"multiply", .str [215], .str [215], .str [215], .str [42], .str [215], .str [215]⟩,
  ⟨"reduce", .str [47], .str [180], .str [47], .str [47], .str [47], .str [47]⟩,
  ⟨"scan", .str [92], .str [96], .str [92], .str [92], .str [92], .str [92]⟩,
  ⟨"table", .str [0x2218, 46], .str [0x231C], .str [0x229E], .null, .str [0x233B], .str [0x229E]⟩,
  ⟨"commute", .str [0x2368], .str [0x02DC], .str [0x02DC], .str [126], .str [0x2368], .str [0x2368]⟩]

/-- The closed set of known language ids. -/
def knownLangs : List String := ["apl", "bqn", "uiua", "j", "kap", "tinyapl"]

/-- JS `Map.set`: update the value in place if the key is present (keeping
its insertion position), otherwise append. -/
def mapSet (m : List (JsVal × JsVal)) (k v : JsVal) : List (JsVal × JsVal) :=
  if m.any (fun p => p.1 = k) then
    m.map (fun p => if p.1 = k then (k, v) else p)
  else m ++ [(k, v)]

/-- `buildTranslationMap`: the forward map, as an insertion-ordered
association list.  Mirrors the JS loop exactly: `=== null` skips only the
explicit null markers, so `undefined` values from an unknown language id
flow through and become keys or values of the map. -/
def buildTranslationMap (fromLang toLang : String) : List (JsVal × JsVal) :=
  primitiveGroups.foldl
    (fun forward row =>
      let fromGlyph := row.get fromLang
      let toGlyph := row.get toLang
      if fromGlyph = JsVal.null ∨ toGlyph = JsVal.null then forward
      else if fromGlyph = toGlyph then forward
      else mapSet forward fromGlyph toGlyph)
    []

/-- Stable insertion of a token entry into a length-descending list
(JS `sort((a, b) => b.length - a.length)`, which is stable). -/
def insertTok (x : Str16 × JsVal) : List (Str16 × JsVal) → List (Str16 × JsVal)
  | [] => [x]
  | y :: ys => if y.1.length ≤ x.1.length then x :: y :: ys else y :: insertTok x ys

/-- Stable sort of the glyph entries by key length, descending. -/
def sortTokens (l : List (Str16 × JsVal)) : List (Str16 × JsVal) :=
  l.foldr insertTok []

/-- JS `forward.get(match) || match`: an undefined (or null, or empty)
stored value is falsy and falls back to the matched text itself. -/
def valOr (v : JsVal) (m : Str16) : Str16 :=
  match v with
  | .str t => if t = [] then m else t
  | _ => m

/-- The first alternative of the token pattern that matches at the head of
`s` (regex alternation tries alternatives left to right at each position).
Only non-empty tokens are considered; every token of the table is
non-empty. -/
def tryMatch (alts : List (Str16 × JsVal)) (s : Str16) : Option (Str16 × JsVal) :=
  alts.find? (fun a => a.1 ≠ [] ∧ a.1 <+: s)

/-- One global-regex replacement pass (fuel-indexed; each step consumes at
least one code unit, so `fuel = s.length` fully processes `s`).  At each
position the first (longest, by the sort) matching token is replaced by its
value through `valOr`; otherwise one unit is copied. -/
def substF (alts : List (Str16 × JsVal)) : Nat → Str16 → Str16
  | 0, s => s
  | _ + 1, [] => []
  | fuel + 1, c :: cs =>
    match tryMatch alts (c :: cs) with
    | some (tok, v) => valOr v tok ++ substF alts fuel ((c :: cs).drop tok.length)
    | none => c :: substF alts fuel cs

/-- The replacement events of one pass: each element is the pair
(consumed input chunk, produced output chunk); a matched token `a` yields
`(a, valOr v a)` and an unmatched unit `c` yields `([c], [c])`. -/
def substEvF (alts : List (Str16 × JsVal)) : Nat → Str16 → List (Str16 × Str16)
  | 0, _ => []
  | _ + 1, [] => []
  | fuel + 1, c :: cs =>
    match tryMatch alts (c :: cs) with
    | some (tok, v) => (tok, valOr v tok) :: substEvF alts fuel ((c :: cs).drop tok.length)
    | none => ([c], [c]) :: substEvF alts fuel cs

/-- Concatenation of the input chunks of an event list. -/
def evIn (evs : List (Str16 × Str16)) : Str16 :=
  (evs.map (fun e => e.1)).flatten

/-- Concatenation of the output chunks of an event list. -/
def evOut (evs : List (Str16 × Str16)) : Str16 :=
  (evs.map (fun e => e.2)).flatten

/-- The length-sorted token list of a language pair (the alternation order
of the synthesized pattern). -/
def sortedAlts (fromLang toLang : String) : List (Str16 × JsVal) :=
  sortTokens ((buildTranslationMap fromLang toLang).filterMap
    (fun e => match e.1 with
      | .str s => some (s, e.2)
      | _ => none))

/-- `translatePrimitives(code, fromLang, toLang)`.  `Except` models the JS
exception path: when the source language id is unknown, every key of the
forward map is the single value `undefined`, the map is non-empty, and
`sortedGlyphs.map(g => g.replace(...))` throws a TypeError on the undefined
key (`[undefined].sort(cmp)` itself never calls the comparator on a single
element).  Keys are otherwise all strings, so checking for an undefined key
before sorting is equivalent to the JS order of operations. -/
def translatePrimitives (code : Str16) (fromLang toLang : String) :
    Except Unit Str16 :=
  if fromLang = toLang then .ok code
  else
    let forward := buildTranslationMap fromLang toLang
    if forward = [] then .ok code
    else if forward.any (fun e => e.1 = JsVal.undefined) then .error ()
    else .ok (substF (sortedAlts fromLang toLang) code.length code)

/-- `hasTranslation(fromLang, toLang)`. -/
def hasTranslation (fromLang toLang : String) : Bool :=
  if fromLang = toLang then false
  else ¬ buildTranslationMap fromLang toLang = []

/-- `getTranslatablePrimitives(fromLang, toLang)`: the `{from, to, name}`
records, in table order.  The JS test `!== null` does not exclude
`undefined`, which is faithfully preserved here. -/
def getTranslatablePrimitives (fromLang toLang : String) :
    List (JsVal × JsVal × String) :=
  primitiveGroups.foldl
    (fun result row =>
      let fromGlyph := row.get fromLang
      let toGlyph := row.get toLang
      if fromGlyph ≠ JsVal.null ∧ toGlyph ≠ JsVal.null ∧ fromGlyph ≠ toGlyph then
        result ++ [(fromGlyph, toGlyph, row.name)]
      else result)
    []

/-! ### Array literal translation -/

/-- The number-pattern suffix family of a language: the APL-style exponent
`(e[+-]?\d+)?`, the J extension `([ejrx][+-]?\d+\.?\d*)?`, or the TinyAPL
pair `(U+23E8[+-]?\d+)?(U+1D0A U+00AF?\d+\.?\d*)?`. -/
inductive SuffixKind where
  | eExp
  | jExt
  | tinyExt
deriving DecidableEq, Repr

/-- `arrayLiteralConfig` entry: element separator, negative prefix (both as
code-unit strings; all are a single unit) and the number-pattern family. -/
structure ALConfig where
  separator : Str16
  negative : Nat
  suffix : SuffixKind
deriving DecidableEq, Repr

/-- `arrayLiteralConfig[lang]` (U+00AF is the high minus, U+203F the
ligature separator). -/
def arrayLiteralConfig (lang : String) : Option ALConfig :=
  if lang = "apl" then some ⟨[32], 0xAF, .eExp⟩
  else if lang = "bqn" then some ⟨[0x203F], 0xAF, .eExp⟩
  else if lang = "uiua" then some ⟨[95], 0xAF, .eExp⟩
  else if lang = "j" then some ⟨[32], 95, .jExt⟩
  else if lang = "kap" then some ⟨[32], 0xAF, .eExp⟩
  else if lang = "tinyapl" then some ⟨[0x203F], 0xAF, .tinyExt⟩
  else none

/-- ASCII digit test (`\d`). -/
def isDigit (c : Nat) : Bool := 48 ≤ c ∧ c ≤ 57

/-- Number of leading ASCII digits (`\d*`, greedy). -/
def countDigits : Str16 → Nat
  | c :: r => if isDigit c then countDigits r + 1 else 0
  | [] => 0

/-- Units consumed by the mantissa group `(\d+\.?\d*|\.\d+)`; 0 means the
group fails.  The alternatives have disjoint first units, and the greedy
quantifiers never need to backtrack because nothing mandatory follows. -/
def matchCoreLen (s : Str16) : Nat :=
  let d := countDigits s
  if d > 0 then
    match s.drop d with
    | 46 :: r1 => d + 1 + countDigits r1
    | _ => d
  else
    match s with
    | 46 :: r1 => let d2 := countDigits r1; if d2 > 0 then 1 + d2 else 0
    | _ => 0

/-- Units consumed by an optional sign `[+-]?`. -/
def signLen : Str16 → Nat
  | 43 :: _ => 1
  | 45 :: _ => 1
  | _ => 0

/-- Units consumed by `(e[+-]?\d+)?` under the `i` flag (e or E); the group
matches all-or-nothing. -/
def expELen (s : Str16) : Nat :=
  match s with
  | c :: r =>
    if c = 101 ∨ c = 69 then
      let sg := signLen r
      let d := countDigits (r.drop sg)
      if d > 0 then 1 + sg + d else 0
    else 0
  | [] => 0

/-- Units consumed by `([ejrx][+-]?\d+\.?\d*)?` under the `i` flag. -/
def jExtLen (s : Str16) : Nat :=
  match s with
  | c :: r =>
    if c ∈ [101, 106, 114, 120, 69, 74, 82, 88] then
      let sg := signLen r
      let d := countDigits (r.drop sg)
      if d > 0 then
        let tail :=
          match r.drop (sg + d) with
          | 46 :: r3 => 1 + countDigits r3
          | _ => 0
        1 + sg + d + tail
      else 0
    else 0
  | [] => 0

/-- Units consumed by TinyAPL `(U+23E8[+-]?\d+)?(U+1D0A U+00AF?\d+\.?\d*)?`. -/
def tinyExtLen (s : Str16) : Nat :=
  let g1 :=
    match s with
    | 0x23E8 :: r =>
      let sg := signLen r
      let d := countDigits (r.drop sg)
      if d > 0 then 1 + sg + d else 0
    | _ => 0
  let g2 :=
    match s.drop g1 with
    | 0x1D0A :: r =>
      let ng := if r.head? = some 0xAF then 1 else 0
      let d := countDigits (r.drop ng)
      if d > 0 then
        let tail :=
          match r.drop (ng + d) with
          | 46 :: r3 => 1 + countDigits r3
          | _ => 0
        1 + ng + d + tail
      else 0
    | _ => 0
  g1 + g2

/-- Units consumed by `config.numberPattern` at the start of `s`; 0 means no
match.  The optional negative prefix commits only when the mantissa follows
(regex backtracking cannot succeed otherwise, since the mantissa can never
begin with the negative prefix). -/
def matchNumberLen (cfg : ALConfig) (s : Str16) : Nat :=
  let ng := if s.head? = some cfg.negative then 1 else 0
  let core := matchCoreLen (s.drop ng)
  if core = 0 then 0
  else
    let sufs := s.drop (ng + core)
    let suf :=
      match cfg.suffix with
      | .eExp => expELen sufs
      | .jExt => jExtLen sufs
      | .tinyExt => tinyExtLen sufs
    ng + core + suf

/-- The separator-number loop of `parseArrayLiteral` (fuel-indexed; each
iteration consumes the separator plus a non-empty number, so
`fuel = rem.length` is always enough).  Returns the further elements and
the number of units consumed. -/
def palLoopF (cfg : ALConfig) : Nat → Str16 → List Str16 × Nat
  | 0, _ => ([], 0)
  | fuel + 1, rem =>
    if cfg.separator <+: rem then
      let after := rem.drop cfg.separator.length
      if after = [] then ([], 0)
      else
        let k := matchNumberLen cfg after
        if k = 0 then ([], 0)
        else
          let rest := palLoopF cfg fuel (after.drop k)
          (after.take k :: rest.1, cfg.separator.length + k + rest.2)
    else ([], 0)

/-- `parseArrayLiteral(code, start, lang)` on the suffix of the code that
begins at `start`: the matched elements and the consumed length, or `none`
when fewer than 2 elements match. -/
def parseArrayLiteral (lang : String) (s : Str16) : Option (List Str16 × Nat) :=
  match arrayLiteralConfig lang with
  | none => none
  | some cfg =>
    let n1 := matchNumberLen cfg s
    if n1 = 0 then none
    else
      let rest := palLoopF cfg (s.drop n1).length (s.drop n1)
      let elements := s.take n1 :: rest.1
      if elements.length < 2 then none else some (elements, n1 + rest.2)

/-- `convertNumber(num, fromLang, toLang)`: replace a leading source
negative prefix by the target one. -/
def convertNumber (num : Str16) (fromLang toLang : String) : Str16 :=
  match arrayLiteralConfig fromLang, arrayLiteralConfig toLang with
  | some fc, some tc =>
    if fc.negative = tc.negative then num
    else if num.head? = some fc.negative then tc.negative :: num.tail
    else num
  | _, _ => num

/-- `getStringDelimiters(lang)` (single-unit delimiters). -/
def getStringDelimiters (lang : String) : List Nat :=
  if lang = "apl" ∨ lang = "j" ∨ lang = "kap" then [39]
  else if lang = "bqn" ∨ lang = "uiua" then [34]
  else if lang = "tinyapl" then [39, 34]
  else []

/-- `getCommentStarters(lang)` (U+235D is the APL lamp; J uses the word
`NB.`). -/
def getCommentStarters (lang : String) : List Str16 :=
  if lang = "apl" ∨ lang = "kap" ∨ lang = "tinyapl" then [[0x235D]]
  else if lang = "bqn" ∨ lang = "uiua" then [[35]]
  else if lang = "j" then [[78, 66, 46]]
  else []

/-- Whether the doubled-delimiter escape convention applies
(`delimiter === "'" && lang !== "bqn"`). -/
def strDbl (lang : String) (delim : Nat) : Bool :=
  delim = 39 ∧ lang ≠ "bqn"

/-- The escape character of a string
(`lang === "tinyapl" && delimiter === \x22 ? U+2358 : backslash`). -/
def strEsc (lang : String) (delim : Nat) : Nat :=
  if lang = "tinyapl" ∧ delim = 34 then 0x2358 else 92

/-- The body loop of `skipString`, on the text after the opening delimiter;
returns the number of units consumed (closing delimiter included when
present, the newline of an unclosed string excluded). -/
def strLoop (delim : Nat) (dbl : Bool) (esc : Nat) : Str16 → Nat
  | [] => 0
  | [c] =>
    if c = delim then 1
    else if c = 10 then 0
    else 1
  | c :: d :: rest =>
    if c = delim then
      if dbl ∧ d = delim then 2 + strLoop delim dbl esc rest
      else 1
    else if ¬ dbl ∧ c = esc then 2 + strLoop delim dbl esc rest
    else if c = 10 then 0
    else 1 + strLoop delim dbl esc (d :: rest)

/-- `skipString(code, i, lang, delimiters)` on the suffix starting at `i`:
the number of units the string occupies, 0 when no string starts here. -/
def skipStringLen (lang : String) (delims : List Nat) (s : Str16) : Nat :=
  match s with
  | [] => 0
  | c :: rest =>
    if c ∈ delims then 1 + strLoop c (strDbl lang c) (strEsc lang c) rest
    else 0

/-- `skipComment(code, i, lang, commentStarters)` on the suffix starting at
`i`: units up to (excluding) the next newline when a starter matches here,
0 otherwise. -/
def skipCommentLen (starters : List Str16) (s : Str16) : Nat :=
  if starters.any (fun st => st <+: s) then
    match s.findIdx? (fun c => c = 10) with
    | some k => k
    | none => s.length
  else 0

/-- `ch >= "0" && ch <= "9" || ch === "." || ch === config.negative`. -/
def isNumberStart (cfg : ALConfig) (c : Nat) : Bool :=
  isDigit c ∨ c = 46 ∨ c = cfg.negative

/-- A chunk of the `translateArrayLiterals` walk: a skipped string, a
skipped comment, a recognized array-literal run (raw input and converted
output), or a single copied unit. -/
inductive Seg where
  | strSeg (s : Str16)
  | comSeg (s : Str16)
  | arrSeg (raw out : Str16)
  | chrSeg (c : Nat)
deriving DecidableEq, Repr

/-- The input chunk a segment consumed. -/
def Seg.inp : Seg → Str16
  | .strSeg s => s
  | .comSeg s => s
  | .arrSeg raw _ => raw
  | .chrSeg c => [c]

/-- The output chunk a segment produces. -/
def Seg.out : Seg → Str16
  | .strSeg s => s
  | .comSeg s => s
  | .arrSeg _ o => o
  | .chrSeg c => [c]

/-- The main walk of `translateArrayLiterals`, as the list of its chunks in
order (the JS loop pushes exactly the `Seg.out` parts onto `result`).
Fuel-indexed; every branch consumes at least one unit, so
`fuel = code.length` processes all of it. -/
def talScanF (fromLang toLang : String) (fc : ALConfig) : Nat → Str16 → List Seg
  | 0, _ => []
  | _ + 1, [] => []
  | fuel + 1, c :: cs =>
    if 0 < skipStringLen fromLang (getStringDelimiters fromLang) (c :: cs) then
      Seg.strSeg ((c :: cs).take
          (skipStringLen fromLang (getStringDelimiters fromLang) (c :: cs))) ::
        talScanF fromLang toLang fc fuel ((c :: cs).drop
          (skipStringLen fromLang (getStringDelimiters fromLang) (c :: cs)))
    else if 0 < skipCommentLen (getCommentStarters fromLang) (c :: cs) then
      Seg.comSeg ((c :: cs).take (skipCommentLen (getCommentStarters fromLang) (c :: cs))) ::
        talScanF fromLang toLang fc fuel ((c :: cs).drop
          (skipCommentLen (getCommentStarters fromLang) (c :: cs)))
    else if isNumberStart fc c then
      match parseArrayLiteral fromLang (c :: cs) with
      | some (els, e) =>
        Seg.arrSeg ((c :: cs).take e)
          (List.intercalate
            (match arrayLiteralConfig toLang with
             | some tc => tc.separator
             | none => [])
            (els.map (fun el => convertNumber el fromLang toLang))) ::
          talScanF fromLang toLang fc fuel ((c :: cs).drop e)
      | none => Seg.chrSeg c :: talScanF fromLang toLang fc fuel cs
    else Seg.chrSeg c :: talScanF fromLang toLang fc fuel cs

/-- Concatenated input chunks of a segment list. -/
def segsIn (l : List Seg) : Str16 := (l.map Seg.inp).flatten

/-- Concatenated output chunks of a segment list. -/
def segsOut (l : List Seg) : Str16 := (l.map Seg.out).flatten

/-- `translateArrayLiterals(code, fromLang, toLang)`: the fast paths return
the code unchanged, otherwise the walk result is joined.  This function
never throws. -/
def translateArrayLiterals (code : Str16) (fromLang toLang : String) : Str16 :=
  if fromLang = toLang then code
  else
    match arrayLiteralConfig fromLang, arrayLiteralConfig toLang with
    | some fc, some tc =>
      if fc.separator = tc.separator ∧ fc.negative = tc.negative then code
      else segsOut (talScanF fromLang toLang fc code.length code)
    | _, _ => code

/-! ### Derived notions used by the specification claims -/

/-- The forward map of a language pair as plain token pairs, each target
already passed through the `|| match` fallback (for known language pairs
this is simply the stored target token). -/
def pairMap (fromLang toLang : String) : List (Str16 × Str16) :=
  (sortedAlts fromLang toLang).map (fun e => (e.1, valOr e.2 e.1))

/-- The token of a named concept in a language, read from the table
(empty when null/undefined). -/
def conceptTok (cname lang : String) : Str16 :=
  match primitiveGroups.find? (fun r => r.name = cname) with
  | some r =>
    match r.get lang with
    | .str s => s
    | _ => []
  | none => []

/-- Position `p` of `evs` (an event list, counted in consumed input units)
is an event that consumed exactly `w` and produced exactly `tgt`. -/
def occEvent (w tgt : Str16) : List (Str16 × Str16) → Nat → Bool
  | [], _ => false
  | (a, b) :: evs, p =>
    if p = 0 then a = w ∧ b = tgt
    else if p < a.length then false
    else occEvent w tgt evs (p - a.length)

/-- Side conditions under which every occurrence of the token `w` is
consumed as one whole match and replaced by `tgt` (checked per language
pair by `decide`): `w` is a non-empty mapped token, it is the unique
alternative with its spelling, no other alternative extends it, and its
first unit occurs in no alternative except as its first unit. -/
def tokenRewriteOK (w tgt : Str16) (alts : List (Str16 × JsVal)) : Prop :=
  w ≠ [] ∧
  (∃ e ∈ alts, e.1 = w) ∧
  (∀ e ∈ alts, e.1 = w → valOr e.2 e.1 = tgt) ∧
  (∀ e ∈ alts, w <+: e.1 → e.1 = w) ∧
  (∀ e ∈ alts, ∀ u ∈ w.take 1, u ∉ e.1.drop 1)

instance (w tgt : Str16) (alts : List (Str16 × JsVal)) :
    Decidable (tokenRewriteOK w tgt alts) := by
  unfold tokenRewriteOK; infer_instance

/-- Entries earlier in the sorted alternation have keys at least as long. -/
def LenGE (a b : Str16 × JsVal) : Prop := b.1.length ≤ a.1.length

/-- A segment of the walk that is a skipped string or comment region. -/
def Seg.isProtected : Seg → Prop
  | .strSeg _ => True
  | .comSeg _ => True
  | _ => False

/-- The string content of a table value, when it is one. -/
def strOf : JsVal → Option Str16
  | .str s => some s
  | _ => none

/-- The forward map of a pair is non-empty and all its keys are real
strings (so `translatePrimitives` takes the substitution path). -/
def mapOK (fromLang toLang : String) : Prop :=
  buildTranslationMap fromLang toLang ≠ [] ∧
  ∀ e ∈ buildTranslationMap fromLang toLang, e.1 ≠ JsVal.undefined

instance (fromLang toLang : String) : Decidable (mapOK fromLang toLang) := by
  unfold mapOK; infer_instance

/-! ### Lemmas about the substitution pass -/

theorem get?_eq_head?_drop {α : Type} (l : List α) (n : Nat) :
    l.get? n = (l.drop n).head? := by
  induction l generalizing n with
  | nil => simp
  | cons a l ih => cases n <;> simp [ih]

theorem prefix_get?_eq {α : Type} {l₁ l₂ : List α} (h : l₁ <+: l₂) {n : Nat}
    (hn : n < l₁.length) : l₂.get? n = l₁.get? n := by
  obtain ⟨r, rfl⟩ := h
  exact List.get?_append hn

theorem mem_insertTok {x y : Str16 × JsVal} {l : List (Str16 × JsVal)}
    (h : y ∈ insertTok x l) : y = x ∨ y ∈ l := by
  induction l with
  | nil => simpa [insertTok] using h
  | cons hd tl ih =>
    by_cases hc : hd.1.length ≤ x.1.length
    · rcases (by simpa [insertTok, hc] using h) with h1 | h1 | h1
      · exact Or.inl h1
      · exact Or.inr (by simp [h1])
      · exact Or.inr (by simp [h1])
    · rcases (by simpa [insertTok, hc] using h) with h1 | h1
      · exact Or.inr (by simp [h1])
      · rcases ih h1 with h2 | h2
        · exact Or.inl h2
        · exact Or.inr (by simp [h2])

theorem pairwise_insertTok {x : Str16 × JsVal} {l : List (Str16 × JsVal)}
    (h : l.Pairwise LenGE) : (insertTok x l).Pairwise LenGE := by
  induction l with
  | nil => simp [insertTok, List.Pairwise]
  | cons hd tl ih =>
    rcases List.pairwise_cons.mp h with ⟨hhd, htl⟩
    by_cases hc : hd.1.length ≤ x.1.length
    · simp only [insertTok, hc, if_pos]
      refine List.pairwise_cons.mpr ⟨?_, h⟩
      intro z hz
      rcases List.mem_cons.mp hz with h1 | h1
      · subst h1; exact hc
      · exact Nat.le_trans (hhd z h1) hc
    · simp only [insertTok, hc, if_neg, not_false_iff]
      refine List.pairwise_cons.mpr ⟨?_, ih htl⟩
      intro z hz
      rcases mem_insertTok hz with h1 | h1
      · subst h1; exact Nat.le_of_lt (Nat.lt_of_not_le hc)
      · exact hhd z h1

theorem pairwise_sortTokens (l : List (Str16 × JsVal)) :
    (sortTokens l).Pairwise LenGE := by
  induction l with
  | nil => simp [sortTokens, List.Pairwise]
  | cons hd tl ih => exact pairwise_insertTok ih

/-- On a length-sorted list, `find?` returns a match whose key is at least
as long as that of any other matching entry. -/
theorem find_longest {alts : List (Str16 × JsVal)} (hpair : alts.Pairwise LenGE)
    {P : (Str16 × JsVal) → Bool} {a : Str16 × JsVal}
    (ha : alts.find? P = some a) {w : Str16 × JsVal} (hw : w ∈ alts)
    (hPw : P w = true) : w.1.length ≤ a.1.length := by
  induction alts with
  | nil => cases hw
  | cons hd tl ih =>
    rcases List.pairwise_cons.mp hpair with ⟨hhd, htl⟩
    rw [List.find?_cons] at ha
    cases hP : P hd with
    | true =>
      rw [hP] at ha
      simp only at ha
      cases ha
      rcases List.mem_cons.mp hw with h1 | h1
      · subst h1; exact Nat.le_refl _
      · exact hhd w h1
    | false =>
      rw [hP] at ha
      simp only at ha
      rcases List.mem_cons.mp hw with h1 | h1
      · subst h1; simp [hPw] at hP
      · exact ih htl ha h1

theorem substF_eq_evOut (alts : List (Str16 × JsVal)) :
    ∀ fuel s, s.length ≤ fuel →
      substF alts fuel s = evOut (substEvF alts fuel s)
  | 0, s, h => by
    have hs : s = [] := List.eq_nil_of_length_eq_zero (Nat.le_zero.mp h)
    subst hs; rfl
  | _ + 1, [], _ => rfl
  | fuel + 1, c :: cs, h => by
    simp only [substF, substEvF]
    cases hm : tryMatch alts (c :: cs) with
    | none =>
      have ih := substF_eq_evOut alts fuel cs (Nat.le_of_succ_le_succ h)
      simp [evOut, ih]
    | some tv =>
      obtain ⟨tok, v⟩ := tv
      have hprop := List.find?_some hm
      simp only [decide_eq_true_eq] at hprop
      have htok : 0 < tok.length := List.length_pos.mpr hprop.1
      have hlen : ((c :: cs).drop tok.length).length ≤ fuel := by
        simp only [List.length_drop, List.length_cons]
        have hh : cs.length + 1 ≤ fuel + 1 := by simpa using h
        omega
      have ih := substF_eq_evOut alts fuel _ hlen
      simp [evOut, ih]

theorem evIn_substEvF (alts : List (Str16 × JsVal)) :
    ∀ fuel s, s.length ≤ fuel → evIn (substEvF alts fuel s) = s
  | 0, s, h => by
    have hs : s = [] := List.eq_nil_of_length_eq_zero (Nat.le_zero.mp h)
    subst hs; rfl
  | _ + 1, [], _ => rfl
  | fuel + 1, c :: cs, h => by
    simp only [substEvF]
    cases hm : tryMatch alts (c :: cs) with
    | none =>
      have ih := evIn_substEvF alts fuel cs (Nat.le_of_succ_le_succ h)
      simp [evIn] at ih ⊢
      exact ih
    | some tv =>
      obtain ⟨tok, v⟩ := tv
      have hprop := List.find?_some hm
      simp only [decide_eq_true_eq] at hprop
      have htok : 0 < tok.length := List.length_pos.mpr hprop.1
      have hlen : ((c :: cs).drop tok.length).length ≤ fuel := by
        simp only [List.length_drop, List.length_cons]
        have hh : cs.length + 1 ≤ fuel + 1 := by simpa using h
        omega
      have ih := evIn_substEvF alts fuel _ hlen
      obtain ⟨r, hr⟩ := hprop.2
      simp [evIn] at ih ⊢
      rw [ih, ← hr, List.drop_left]

/-- Every occurrence of a token `w` satisfying `tokenRewriteOK` is consumed
as one whole match of the pass and replaced by `tgt`: the event at the
occurrence offset is exactly `(w, tgt)`. -/
theorem occ_rewrite (alts : List (Str16 × JsVal)) (w tgt : Str16)
    (hOK : tokenRewriteOK w tgt alts) (hpair : alts.Pairwise LenGE) :
    ∀ fuel s p, s.length ≤ fuel → w <+: s.drop p →
      occEvent w tgt (substEvF alts fuel s) p = true
  | 0, s, p, h, hocc => by
    have hs : s = [] := List.eq_nil_of_length_eq_zero (Nat.le_zero.mp h)
    subst hs
    rw [List.drop_nil] at hocc
    exact absurd (List.prefix_nil.mp hocc) hOK.1
  | _ + 1, [], p, _, hocc => by
    rw [List.drop_nil] at hocc
    exact absurd (List.prefix_nil.mp hocc) hOK.1
  | fuel + 1, c :: cs, p, h, hocc => by
    have hne := hOK.1
    obtain ⟨e0, he0mem, he0⟩ := hOK.2.1
    have huniq := hOK.2.2.1
    have hext := hOK.2.2.2.1
    have hhead := hOK.2.2.2.2
    simp only [substEvF]
    cases hm : tryMatch alts (c :: cs) with
    | some tv =>
      obtain ⟨tok, v⟩ := tv
      simp only [tryMatch] at hm
      have hprop := List.find?_some hm
      simp only [decide_eq_true_eq] at hprop
      have hmem : (tok, v) ∈ alts := List.mem_of_find?_eq_some hm
      have htokpos : 0 < tok.length := List.length_pos.mpr hprop.1
      by_cases hp0 : p = 0
      · subst hp0
        rw [List.drop_zero] at hocc
        have hPe0 : (fun a => decide (a.1 ≠ [] ∧ a.1 <+: (c :: cs))) e0 = true := by
          simp only [decide_eq_true_eq, he0]
          exact ⟨hne, hocc⟩
        have hlong : e0.1.length ≤ tok.length := find_longest hpair hm he0mem hPe0
        have hwtok : w <+: tok := by
          refine List.prefix_of_prefix_length_le hocc hprop.2 ?_
          rw [← he0]; exact hlong
        have htkw : tok = w := hext (tok, v) hmem hwtok
        have hval : valOr v tok = tgt := huniq (tok, v) hmem htkw
        subst htkw
        simp [occEvent, hval]
      · by_cases hplt : p < tok.length
        · exfalso
          obtain ⟨u1, w1, hw⟩ : ∃ u1 w1, w = u1 :: w1 := by
            cases w with
            | nil => exact absurd rfl hne
            | cons a b => exact ⟨a, b, rfl⟩
          obtain ⟨r, hr⟩ := hocc
          have hget : (c :: cs).get? p = some u1 := by
            rw [get?_eq_head?_drop, ← hr, hw]; rfl
          have hgtok : tok.get? p = some u1 := by
            rw [← prefix_get?_eq hprop.2 hplt]; exact hget
          have hu1mem : u1 ∈ tok.drop 1 := by
            have hdg : (tok.drop 1).get? (p - 1) = some u1 := by
              rw [List.get?_drop]
              have hpp : 1 + (p - 1) = p := by omega
              rw [hpp]; exact hgtok
            exact List.get?_mem hdg
          exact hhead (tok, v) hmem u1 (by simp [hw]) hu1mem
        · have hple : tok.length ≤ p := Nat.le_of_not_lt hplt
          have hlen2 : ((c :: cs).drop tok.length).length ≤ fuel := by
            simp only [List.length_drop, List.length_cons]
            have hh : cs.length + 1 ≤ fuel + 1 := by simpa using h
            omega
          have hocc2 : w <+: ((c :: cs).drop tok.length).drop (p - tok.length) := by
            rw [List.drop_drop]
            have hpp : tok.length + (p - tok.length) = p := by omega
            rw [hpp]; exact hocc
          have ih := occ_rewrite alts w tgt hOK hpair fuel
            ((c :: cs).drop tok.length) (p - tok.length) hlen2 hocc2
          simp only [occEvent, hp0, hplt, if_false, if_neg]
          exact ih
    | none =>
      simp only [tryMatch] at hm
      by_cases hp0 : p = 0
      · subst hp0
        rw [List.drop_zero] at hocc
        exfalso
        have hnone := List.find?_eq_none.mp hm e0 he0mem
        apply hnone
        simp only [decide_eq_true_eq, he0]
        exact ⟨hne, hocc⟩
      · have hocc2 : w <+: cs.drop (p - 1) := by
          have hpp : p = (p - 1) + 1 := by omega
          rw [hpp, List.drop_succ_cons] at hocc
          exact hocc
        have ih := occ_rewrite alts w tgt hOK hpair fuel cs (p - 1)
          (Nat.le_of_succ_le_succ h) hocc2
        simp only [occEvent, hp0, if_false, if_neg]
        have hnlt : ¬ p < ([c] : Str16).length := by simp; omega
        rw [if_neg hnlt]
        exact ih

/-! ### Lemmas about the string scanner -/

/-- Inside a scanned string body, a newline can only have been consumed by
the escape branch: it is always immediately preceded by the escape
character, and only in non-doubled-escape mode. -/
theorem strLoop_newline (delim : Nat) (dbl : Bool) (esc : Nat)
    (hd10 : delim ≠ 10) (he10 : esc ≠ 10) :
    ∀ s q, q < strLoop delim dbl esc s → s.get? q = some 10 →
      dbl = false ∧ 1 ≤ q ∧ s.get? (q - 1) = some esc
  | [], q, hq, _ => absurd hq (by simp [strLoop])
  | [c], q, hq, hg => by
    cases q with
    | zero =>
      have hc : c = 10 := by simpa using hg
      subst hc
      rw [strLoop, if_neg (Ne.symm hd10), if_pos rfl] at hq
      exact absurd hq (by simp)
    | succ n =>
      cases n <;> simp at hg
  | c :: d :: rest, q, hq, hg => by
    by_cases h1 : c = delim
    · by_cases h2 : dbl = true ∧ d = delim
      · rw [strLoop, if_pos h1, if_pos (by simpa using h2)] at hq
        match q with
        | 0 =>
          have hc : c = 10 := by simpa using hg
          exact absurd (hc ▸ h1).symm hd10
        | 1 =>
          have hdd : d = 10 := by simpa using hg
          exact absurd (hdd ▸ h2.2).symm hd10
        | (n + 2) =>
          have ih := strLoop_newline delim dbl esc hd10 he10 rest n
            (by omega) (by simpa using hg)
          rw [ih.1] at h2
          exact absurd h2.1 (by simp)
      · rw [strLoop, if_pos h1, if_neg (by simpa using h2)] at hq
        match q with
        | 0 =>
          have hc : c = 10 := by simpa using hg
          exact absurd (hc ▸ h1).symm hd10
        | (n + 1) => exact absurd hq (by omega)
    · by_cases h3 : (¬ dbl = true) ∧ c = esc
      · rw [strLoop, if_neg h1, if_pos (by simpa using h3)] at hq
        match q with
        | 0 =>
          have hc : c = 10 := by simpa using hg
          exact absurd (hc ▸ h3.2).symm he10
        | 1 =>
          refine ⟨by simpa using h3.1, Nat.le_refl 1, ?_⟩
          simpa using h3.2
        | (n + 2) =>
          have ih := strLoop_newline delim dbl esc hd10 he10 rest n
            (by omega) (by simpa using hg)
          obtain ⟨ihdbl, ihn, ihprev⟩ := ih
          refine ⟨ihdbl, by omega, ?_⟩
          have hn : n = (n - 1) + 1 := by omega
          show (d :: rest).get? n = some esc
          rw [hn]
          exact ihprev
      · by_cases h4 : c = 10
        · rw [strLoop, if_neg h1, if_neg (by simpa using h3), if_pos h4] at hq
          exact absurd hq (by simp)
        · rw [strLoop, if_neg h1, if_neg (by simpa using h3), if_neg h4] at hq
          match q with
          | 0 => exact absurd (by simpa using hg) h4
          | (n + 1) =>
            have ih := strLoop_newline delim dbl esc hd10 he10 (d :: rest) n
              (by omega) (by simpa using hg)
            obtain ⟨ihdbl, ihn, ihprev⟩ := ih
            refine ⟨ihdbl, by omega, ?_⟩
            have hn : n = (n - 1) + 1 := by omega
            show (c :: d :: rest).get? n = some esc
            rw [hn]
            exact ihprev

/-! ### Lemmas about the array-literal walk -/

theorem matchNumberLen_pos {cfg : ALConfig} {s : Str16}
    (h : matchNumberLen cfg s ≠ 0) : 1 ≤ matchNumberLen cfg s :=
  Nat.one_le_iff_ne_zero.mpr h

/-- A recognized array literal consumes at least one unit. -/
theorem parseArrayLiteral_pos {lang : String} {s : Str16} {els : List Str16}
    {e : Nat} (h : parseArrayLiteral lang s = some (els, e)) : 1 ≤ e := by
  unfold parseArrayLiteral at h
  cases hc : arrayLiteralConfig lang with
  | none => rw [hc] at h; cases h
  | some cfg =>
    rw [hc] at h
    simp only at h
    by_cases hn : matchNumberLen cfg s = 0
    · rw [if_pos hn] at h; cases h
    · rw [if_neg hn] at h
      split at h
      · cases h
      · cases h
        have := matchNumberLen_pos hn
        omega

/-- String and comment segments are copied verbatim: their output chunk is
their input chunk. -/
theorem seg_protected_out {seg : Seg} (h : seg.isProtected) :
    seg.out = seg.inp := by
  cases seg with
  | strSeg s => rfl
  | comSeg s => rfl
  | arrSeg a b => cases h
  | chrSeg c => cases h

/-- The walk covers the whole input: concatenating the consumed chunks
gives back the input text. -/
theorem segsIn_talScanF (fromLang toLang : String) (fc : ALConfig) :
    ∀ fuel s, s.length ≤ fuel →
      segsIn (talScanF fromLang toLang fc fuel s) = s
  | 0, s, h => by
    have hs : s = [] := List.eq_nil_of_length_eq_zero (Nat.le_zero.mp h)
    subst hs; rfl
  | _ + 1, [], _ => rfl
  | fuel + 1, c :: cs, h => by
    have hcs : cs.length + 1 ≤ fuel + 1 := by simpa using h
    simp only [talScanF]
    by_cases hn : 0 < skipStringLen fromLang (getStringDelimiters fromLang) (c :: cs)
    · rw [if_pos hn]
      have hih := segsIn_talScanF fromLang toLang fc fuel
        ((c :: cs).drop (skipStringLen fromLang (getStringDelimiters fromLang) (c :: cs)))
        (by simp only [List.length_drop, List.length_cons]; omega)
      simp only [segsIn, List.map_cons, List.flatten_cons, Seg.inp]
      rw [show ∀ l : List Seg, (l.map Seg.inp).flatten = segsIn l from fun _ => rfl, hih,
        List.take_append_drop]
    · rw [if_neg hn]
      by_cases hm : 0 < skipCommentLen (getCommentStarters fromLang) (c :: cs)
      · rw [if_pos hm]
        have hih := segsIn_talScanF fromLang toLang fc fuel
          ((c :: cs).drop (skipCommentLen (getCommentStarters fromLang) (c :: cs)))
          (by simp only [List.length_drop, List.length_cons]; omega)
        simp only [segsIn, List.map_cons, List.flatten_cons, Seg.inp]
        rw [show ∀ l : List Seg, (l.map Seg.inp).flatten = segsIn l from fun _ => rfl, hih,
          List.take_append_drop]
      · rw [if_neg hm]
        by_cases hs : isNumberStart fc c
        · rw [if_pos hs]
          cases hp : parseArrayLiteral fromLang (c :: cs) with
          | some pr =>
            obtain ⟨els, e⟩ := pr
            have hepos := parseArrayLiteral_pos hp
            have hih := segsIn_talScanF fromLang toLang fc fuel
              ((c :: cs).drop e)
              (by simp only [List.length_drop, List.length_cons]; omega)
            simp only [segsIn, List.map_cons, List.flatten_cons, Seg.inp]
            rw [show ∀ l : List Seg, (l.map Seg.inp).flatten = segsIn l from fun _ => rfl, hih,
              List.take_append_drop]
          | none =>
            have hih := segsIn_talScanF fromLang toLang fc fuel cs
              (Nat.le_of_succ_le_succ hcs)
            simp only [segsIn, List.map_cons, List.flatten_cons, Seg.inp]
            rw [show ∀ l : List Seg, (l.map Seg.inp).flatten = segsIn l from fun _ => rfl, hih]
            rfl
        · rw [if_neg hs]
          have hih := segsIn_talScanF fromLang toLang fc fuel cs
            (Nat.le_of_succ_le_succ hcs)
          simp only [segsIn, List.map_cons, List.flatten_cons, Seg.inp]
          rw [show ∀ l : List Seg, (l.map Seg.inp).flatten = segsIn l from fun _ => rfl, hih]
          rfl

/-! ## Shared helper results for the claims -/

/-- Each entry of the forward map of any pair of known languages is
translated, in isolation, to exactly its target token. -/
theorem single_token_exact : ∀ f ∈ knownLangs, ∀ t ∈ knownLangs,
    ∀ e ∈ pairMap f t, translatePrimitives e.1 f t = .ok e.2 := by decide

/-- A concept with distinct non-null tokens in two distinct known languages
contributes its token pair to the forward maps of both directions. -/
theorem pairMap_mem_of_row : ∀ row ∈ primitiveGroups, ∀ A ∈ knownLangs,
    ∀ B ∈ knownLangs, A ≠ B →
    ∀ tA ∈ (strOf (row.get A)).toList, ∀ tB ∈ (strOf (row.get B)).toList,
      tA ≠ tB → (tA, tB) ∈ pairMap A B := by decide

/-- For distinct known languages the forward map is non-empty with real
string keys, and the string-delimiter and comment concepts (when their
tokens differ) satisfy the occurrence-rewrite side conditions. -/
theorem c10_side : ∀ f ∈ knownLangs, ∀ t ∈ knownLangs, f ≠ t →
    mapOK f t ∧
    (conceptTok "stringDelimiter" f ≠ conceptTok "stringDelimiter" t →
      tokenRewriteOK (conceptTok "stringDelimiter" f)
        (conceptTok "stringDelimiter" t) (sortedAlts f t)) ∧
    (conceptTok "comment" f ≠ conceptTok "comment" t →
      tokenRewriteOK (conceptTok "comment" f) (conceptTok "comment" t)
        (sortedAlts f t)) := by decide

/-- When the forward map is usable, `translatePrimitives` is exactly the
single substitution pass. -/
theorem translatePrimitives_subst {f t : String} (hft : f ≠ t)
    (hmap : mapOK f t) (code : Str16) :
    translatePrimitives code f t =
      .ok (substF (sortedAlts f t) code.length code) := by
  simp only [translatePrimitives]
  rw [if_neg hft]
  have h2 : (buildTranslationMap f t).any (fun e => decide (e.1 = JsVal.undefined)) = false := by
    rw [List.any_eq_false]
    intro x hx
    simpa using hmap.2 x hx
  rw [if_neg hmap.1, h2]
  simp

/-- Delimiters of known languages are quotes, never a newline, and the
escape character is never a newline either. -/
theorem delim_facts : ∀ lang ∈ knownLangs, ∀ d ∈ getStringDelimiters lang,
    d ≠ 10 ∧ strEsc lang d ≠ 10 := by decide

/-! ## Claims -/

/-- C1, counterexample.  The claim says any token strictly inside a string
literal or comment is byte-for-byte unchanged by `translatePrimitives`; on
the spec example (apl source: quote, U+2262, " test", quote, space, lamp
U+235D, space, U+2262, quote, space) the U+2262 at offset 1 lies strictly
inside the string region [0, 8) and the U+2262 at offset 11 lies inside the
comment region starting at 9, yet both are rewritten to U+2260. -/
theorem claim1_counterexample :
    translatePrimitives [39, 0x2262, 32, 116, 101, 115, 116, 39, 32, 0x235D, 32, 0x2262, 39, 32]
      "apl" "bqn"
      = .ok [34, 0x2260, 32, 116, 101, 115, 116, 34, 32, 35, 32, 0x2260, 34, 32] ∧
    skipStringLen "apl" (getStringDelimiters "apl")
      [39, 0x2262, 32, 116, 101, 115, 116, 39, 32, 0x235D, 32, 0x2262, 39, 32] = 8 ∧
    skipCommentLen (getCommentStarters "apl") [0x235D, 32, 0x2262, 39, 32] = 5 ∧
    ([39, 0x2262, 32, 116, 101, 115, 116, 39, 32, 0x235D, 32, 0x2262, 39, 32] : Str16).get? 1
      = some 0x2262 ∧
    ([34, 0x2260, 32, 116, 101, 115, 116, 34, 32, 35, 32, 0x2260, 34, 32] : Str16).get? 1
      = some 0x2260 ∧
    ([39, 0x2262, 32, 116, 101, 115, 116, 39, 32, 0x235D, 32, 0x2262, 39, 32] : Str16).get? 11
      = some 0x2262 ∧
    ([34, 0x2260, 32, 116, 101, 115, 116, 34, 32, 35, 32, 0x2260, 34, 32] : Str16).get? 11
      = some 0x2260 := by decide

/-- C1, amended.  `translatePrimitives` substitutes mapped tokens uniformly
over the whole text, inside string literals and comments as much as outside
them: on the spec example every mapped token, including the quoted U+2262,
the quotes themselves, the comment lamp and the U+2262 inside the comment,
is rewritten to its bqn counterpart. -/
theorem claim1_amended_uniform_substitution :
    translatePrimitives [39, 0x2262, 32, 116, 101, 115, 116, 39, 32, 0x235D, 32, 0x2262, 39, 32]
      "apl" "bqn"
      = .ok [34, 0x2260, 32, 116, 101, 115, 116, 34, 32, 35, 32, 0x2260, 34, 32] := by decide

/-- C2.  The claim says translation calls with an unknown language id on
either side return the original text unchanged and never throw.  The code
violates this: with an unknown source language and a known target the
forward map holds the single key `undefined`, and building the escaped
pattern throws a TypeError (modelled as `Except.error`).
`translateArrayLiterals` does return the text unchanged. -/
theorem claim2_unknown_source_throws :
    translatePrimitives [120] "xyz" "apl" = .error () ∧
    translateArrayLiterals [120] "xyz" "apl" = [120] ∧
    translatePrimitives [0x2262, 120] "apl" "zzz" = .ok [0x2262, 120] ∧
    translatePrimitives [120] "xyz" "zzz" = .ok [120] := by decide

/-- C3.  Substitution is non-cascading: whenever the forward map of a known
language pair sends `a` to `b` and `b` to `c`, translating the single-token
input `a` yields `b`, and never `c` when the two differ (concretely,
bqn to apl sends U+2260 to U+2262 and U+2262 to U+2374, and the input
U+2260 translates to U+2262, not U+2374). -/
theorem claim3_non_cascading : ∀ f ∈ knownLangs, ∀ t ∈ knownLangs,
    ∀ e1 ∈ pairMap f t, ∀ e2 ∈ pairMap f t, e1.2 = e2.1 →
      translatePrimitives e1.1 f t = .ok e1.2 ∧
      (e1.2 ≠ e2.2 → translatePrimitives e1.1 f t ≠ .ok e2.2) := by
  intro f hf t ht e1 he1 e2 he2 hchain
  have h1 := single_token_exact f hf t ht e1 he1
  refine ⟨h1, fun hne hcon => hne ?_⟩
  rw [h1] at hcon
  injection hcon

/-- C3, witness: the chain U+2260 to U+2262 to U+2374 of bqn to apl. -/
theorem claim3_witness :
    translatePrimitives [0x2260] "bqn" "apl" = .ok [0x2262] ∧
    translatePrimitives [0x2260] "bqn" "apl" ≠ .ok [0x2374] := by
  have h := claim3_non_cascading "bqn" (by decide) "apl" (by decide)
    ([0x2260], [0x2262]) (by decide) ([0x2262], [0x2374]) (by decide) rfl
  exact ⟨h.1, h.2 (by decide)⟩

/-- C4.  Longest-token-first precedence: at any position of any input where
a mapped token of a known pair matches, the alternative actually chosen is
at least as long, so an occurrence of a longer token is never consumed as a
mapped shorter prefix; concretely, apl to bqn translates the left-operand
marker (U+237A U+237A) to U+1D53D as a whole, not as two copies of the
U+237A image, and jot-dot (U+2218, dot) to U+231C. -/
theorem claim4_longest_match :
    (∀ f ∈ knownLangs, ∀ t ∈ knownLangs, ∀ code : Str16, ∀ w v,
      (w, v) ∈ sortedAlts f t → w ≠ [] → w <+: code →
      ∃ a b, tryMatch (sortedAlts f t) code = some (a, b) ∧
        w.length ≤ a.length) ∧
    translatePrimitives [0x237A, 0x237A] "apl" "bqn" = .ok [0xD835, 0xDD3D] ∧
    translatePrimitives [0x2218, 46] "apl" "bqn" = .ok [0x231C] := by
  refine ⟨?_, by decide, by decide⟩
  intro f hf t ht code w v hmem hne hpre
  have hP : (fun a => decide (a.1 ≠ [] ∧ a.1 <+: code)) (w, v) = true := by
    simp only [decide_eq_true_eq]
    exact ⟨hne, hpre⟩
  have hsome : ((sortedAlts f t).find?
      (fun a => decide (a.1 ≠ [] ∧ a.1 <+: code))).isSome := by
    rw [List.find?_isSome]
    exact ⟨(w, v), hmem, hP⟩
  obtain ⟨⟨a, b⟩, ha⟩ := Option.isSome_iff_exists.mp hsome
  refine ⟨a, b, ha, ?_⟩
  exact find_longest (pairwise_sortTokens _) ha hmem hP

/-- C4, witness: with the apl left-operand marker matching at the head of
an input, the chosen match has length at least 2. -/
theorem claim4_witness :
    ∃ a b, tryMatch (sortedAlts "apl" "bqn") [0x237A, 0x237A, 120] = some (a, b) ∧
      ([0x237A, 0x237A] : Str16).length ≤ a.length := by
  exact claim4_longest_match.1 "apl" (by decide) "bqn" (by decide)
    [0x237A, 0x237A, 120] [0x237A, 0x237A] (JsVal.str [0xD835, 0xDD3D])
    (by decide) (by decide) (by decide)

/-- C5.  Single-token round trip: for every concept of the table and every
pair of distinct known languages in which its tokens are non-null and
differ, translating the isolated source token forward gives the target
token and translating that back gives the original. -/
theorem claim5_single_token_round_trip : ∀ row ∈ primitiveGroups,
    ∀ A ∈ knownLangs, ∀ B ∈ knownLangs, A ≠ B →
    ∀ tA ∈ (strOf (row.get A)).toList, ∀ tB ∈ (strOf (row.get B)).toList,
      tA ≠ tB →
      translatePrimitives tA A B = .ok tB ∧
      translatePrimitives tB B A = .ok tA := by
  intro row hrow A hA B hB hAB tA htA tB htB hne
  refine ⟨?_, ?_⟩
  · exact single_token_exact A hA B hB (tA, tB)
      (pairMap_mem_of_row row hrow A hA B hB hAB tA htA tB htB hne)
  · exact single_token_exact B hB A hA (tB, tA)
      (pairMap_mem_of_row row hrow B hB A hA (Ne.symm hAB) tB htB tA htA (Ne.symm hne))

/-- C5, witness: the tally concept between apl (U+2262) and bqn (U+2260). -/
theorem claim5_witness :
    translatePrimitives [0x2262] "apl" "bqn" = .ok [0x2260] ∧
    translatePrimitives [0x2260] "bqn" "apl" = .ok [0x2262] := by
  exact claim5_single_token_round_trip
    ⟨"tally", .str [0x2262], .str [0x2260], .str [0x29FB], .str [35], .str [0x2262], .str [0x2262]⟩
    (by decide) "apl" (by decide) "bqn" (by decide) (by decide)
    [0x2262] (by decide) [0x2260] (by decide) (by decide)

/-- C6.  Array-literal round trip: "1 2 (U+00AF)3" translated apl to j
gives "1 2 _3", and translating that j to apl returns the original. -/
theorem claim6_array_literal_round_trip :
    translateArrayLiterals [49, 32, 50, 32, 0xAF, 51] "apl" "j" = [49, 32, 50, 32, 95, 51] ∧
    translateArrayLiterals [49, 32, 50, 32, 95, 51] "j" "apl" = [49, 32, 50, 32, 0xAF, 51] := by
  decide

/-- C7.  `translateArrayLiterals` copies string and comment regions of the
source language verbatim: either it returns the code unchanged (fast
paths), or its output is the concatenation of the walk chunks, where the
walk covers the whole input and every string or comment chunk produces
exactly the input units it consumed, so numeric runs inside those regions
are byte-for-byte unchanged. -/
theorem claim7_literal_frame :
    ∀ (fromLang toLang : String) (code : Str16),
      translateArrayLiterals code fromLang toLang = code ∨
      ∃ fc, arrayLiteralConfig fromLang = some fc ∧
        translateArrayLiterals code fromLang toLang =
          segsOut (talScanF fromLang toLang fc code.length code) ∧
        segsIn (talScanF fromLang toLang fc code.length code) = code ∧
        ∀ seg ∈ talScanF fromLang toLang fc code.length code,
          seg.isProtected → seg.out = seg.inp := by
  intro f t code
  unfold translateArrayLiterals
  by_cases hft : f = t
  · rw [if_pos hft]; left; rfl
  · rw [if_neg hft]
    cases hcf : arrayLiteralConfig f with
    | none => left; rfl
    | some fc =>
      cases hct : arrayLiteralConfig t with
      | none => left; rfl
      | some tc =>
        dsimp only
        by_cases hsame : fc.separator = tc.separator ∧ fc.negative = tc.negative
        · rw [if_pos hsame]; left; rfl
        · rw [if_neg hsame]; right
          exact ⟨fc, rfl, rfl,
            segsIn_talScanF f t fc code.length code (Nat.le_refl _),
            fun seg _ h => seg_protected_out h⟩

/-- C7, witness: the apl to j instance on a text holding a quoted numeric
run, a comment and a code-region run. -/
theorem claim7_witness :
    translateArrayLiterals [39, 49, 32, 0xAF, 50, 39, 32, 49, 32, 0xAF, 50] "apl" "j"
        = [39, 49, 32, 0xAF, 50, 39, 32, 49, 32, 0xAF, 50] ∨
    ∃ fc, arrayLiteralConfig "apl" = some fc ∧
      translateArrayLiterals [39, 49, 32, 0xAF, 50, 39, 32, 49, 32, 0xAF, 50] "apl" "j" =
        segsOut (talScanF "apl" "j" fc 11 [39, 49, 32, 0xAF, 50, 39, 32, 49, 32, 0xAF, 50]) ∧
      segsIn (talScanF "apl" "j" fc 11 [39, 49, 32, 0xAF, 50, 39, 32, 49, 32, 0xAF, 50]) =
        [39, 49, 32, 0xAF, 50, 39, 32, 49, 32, 0xAF, 50] ∧
      ∀ seg ∈ talScanF "apl" "j" fc 11 [39, 49, 32, 0xAF, 50, 39, 32, 49, 32, 0xAF, 50],
        seg.isProtected → seg.out = seg.inp :=
  claim7_literal_frame "apl" "j" [39, 49, 32, 0xAF, 50, 39, 32, 49, 32, 0xAF, 50]

/-- C8, counterexample.  The claim says the scanned string region never
extends past the first newline after the opening delimiter; for a bqn
double-quoted string whose backslash escape immediately precedes the
newline, `skipString` consumes the newline: on
[quote, backslash, newline] the region is the whole 3-unit text although
the first newline sits at offset 2. -/
theorem claim8_counterexample :
    skipStringLen "bqn" (getStringDelimiters "bqn") [34, 92, 10] = 3 ∧
    ([34, 92, 10] : Str16).get? 2 = some 10 ∧
    2 < skipStringLen "bqn" (getStringDelimiters "bqn") [34, 92, 10] := by decide

/-- C8, amended.  String skipping is total and an unterminated string is
closed at its newline, except through escapes: every newline strictly
inside a scanned string region of a known language is immediately preceded
by the escape character of that string form, which only exists in
non-doubled-delimiter mode (so doubled-delimiter strings never contain a
newline). -/
theorem claim8_amended : ∀ lang ∈ knownLangs, ∀ d ∈ getStringDelimiters lang,
    ∀ (rest : Str16) (p : Nat),
      p < skipStringLen lang (getStringDelimiters lang) (d :: rest) →
      (d :: rest).get? p = some 10 →
      strDbl lang d = false ∧ 2 ≤ p ∧
        (d :: rest).get? (p - 1) = some (strEsc lang d) := by
  intro lang hlang d hd rest p hp hg
  obtain ⟨hd10, he10⟩ := delim_facts lang hlang d hd
  rw [skipStringLen, if_pos hd] at hp
  match p with
  | 0 =>
    have hc : d = 10 := by simpa using hg
    exact absurd hc hd10
  | (q + 1) =>
    have hq : q < strLoop d (strDbl lang d) (strEsc lang d) rest := by omega
    have hgq : rest.get? q = some 10 := by simpa using hg
    obtain ⟨h1, h2, h3⟩ := strLoop_newline d (strDbl lang d) (strEsc lang d)
      hd10 he10 rest q hq hgq
    refine ⟨h1, by omega, ?_⟩
    have hqq : q = (q - 1) + 1 := by omega
    show (d :: rest).get? q = some (strEsc lang d)
    rw [hqq]
    exact h3

/-- C8, witness: the escaped–newline bqn string [quote, backslash, newline,
quote]: the newline at offset 2 is inside the scanned region and is
preceded by the backslash escape. -/
theorem claim8_witness :
    strDbl "bqn" 34 = false ∧ 2 ≤ 2 ∧
      ([34, 92, 10, 34] : Str16).get? 1 = some (strEsc "bqn" 34) := by
  exact claim8_amended "bqn" (by decide) 34 (by decide) [92, 10, 34] 2
    (by decide) (by decide)

/-- C9.  The claim says lookup calls with an unknown language id return
false / the empty sequence.  The code violates this whenever exactly one id
is unknown: the strict null check does not skip `undefined`, so
`hasTranslation` reports true and `getTranslatablePrimitives` returns one
record per concept.  Only when both ids are unknown (or equal) do the
claimed values appear. -/
theorem claim9_unknown_lookup_bug :
    hasTranslation "apl" "xyz" = true ∧
    hasTranslation "xyz" "apl" = true ∧
    getTranslatablePrimitives "apl" "xyz" ≠ [] ∧
    (getTranslatablePrimitives "apl" "xyz").length = 24 ∧
    (getTranslatablePrimitives "xyz" "apl").length = 24 ∧
    hasTranslation "xyz" "xyz" = false ∧
    hasTranslation "xyz" "zzz" = false ∧
    getTranslatablePrimitives "xyz" "zzz" = [] := by decide

/-- C10.  The string delimiter and comment marker are ordinary table
entries: for every ordered pair of distinct known languages,
`translatePrimitives` is the event pass, and whenever the two languages
have different string-delimiter (resp. comment) tokens, every occurrence
of the source token in the input is consumed as one whole match whose
output is exactly the target language token (e.g. apl to bqn rewrites
every quote to a double quote and every lamp to a hash). -/
theorem claim10_delimiter_comment_rewrite : ∀ f ∈ knownLangs, ∀ t ∈ knownLangs,
    f ≠ t → ∀ code : Str16,
      translatePrimitives code f t =
        .ok (evOut (substEvF (sortedAlts f t) code.length code)) ∧
      (conceptTok "stringDelimiter" f ≠ conceptTok "stringDelimiter" t →
        ∀ p, conceptTok "stringDelimiter" f <+: code.drop p →
          occEvent (conceptTok "stringDelimiter" f)
            (conceptTok "stringDelimiter" t)
            (substEvF (sortedAlts f t) code.length code) p = true) ∧
      (conceptTok "comment" f ≠ conceptTok "comment" t →
        ∀ p, conceptTok "comment" f <+: code.drop p →
          occEvent (conceptTok "comment" f) (conceptTok "comment" t)
            (substEvF (sortedAlts f t) code.length code) p = true) := by
  intro f hf t ht hft code
  obtain ⟨hmap, hdelim, hcom⟩ := c10_side f hf t ht hft
  refine ⟨?_, ?_, ?_⟩
  · rw [translatePrimitives_subst hft hmap code,
      substF_eq_evOut _ code.length code (Nat.le_refl _)]
  · intro hne p hp
    exact occ_rewrite _ _ _ (hdelim hne) (pairwise_sortTokens _)
      code.length code p (Nat.le_refl _) hp
  · intro hne p hp
    exact occ_rewrite _ _ _ (hcom hne) (pairwise_sortTokens _)
      code.length code p (Nat.le_refl _) hp

/-- C10, witness: apl to bqn on [quote, lamp, quote]: the pass output is
the translation, the quote occurrences at offsets 0 and 2 are events
producing double quotes, and the lamp occurrence at offset 1 produces a
hash. -/
theorem claim10_witness :
    translatePrimitives [39, 0x235D, 39] "apl" "bqn" =
      .ok (evOut (substEvF (sortedAlts "apl" "bqn") 3 [39, 0x235D, 39])) ∧
    occEvent [39] [34] (substEvF (sortedAlts "apl" "bqn") 3 [39, 0x235D, 39]) 0 = true ∧
    occEvent [39] [34] (substEvF (sortedAlts "apl" "bqn") 3 [39, 0x235D, 39]) 2 = true ∧
    occEvent [0x235D] [35] (substEvF (sortedAlts "apl" "bqn") 3 [39, 0x235D, 39]) 1 = true := by
  have h := claim10_delimiter_comment_rewrite "apl" (by decide) "bqn" (by decide)
    (by decide) [39, 0x235D, 39]
  exact ⟨h.1, h.2.1 (by decide) 0 (by decide), h.2.1 (by decide) 2 (by decide),
    h.2.2 (by decide) 1 (by decide)⟩

end ArrayBox
